import Mathlib

/-!
# Verification of the bittorrent-client core

A shallow embedding of the Go sources of the `bittorent-client` repository
(bencode codec, torrent metadata model, peer wire protocol, tracker peer-list
decoding), together with proofs of the specified properties.

Bytes are modelled as `Nat` (the Go code only ever compares them and copies
them around); byte strings are `List Nat`; Go `int`/`int64` are `Int` with
explicit 64-bit range conditions where the code enforces them.
-/

namespace BT

/-! ## Bencode decoder (`bencode/decoder.go`)

The decoder returns, like the Go functions, a triple of value, count of bytes
consumed and error; `DRes` packages value+count (`ok`) or error+count (`err`).
Every error return site in the Go source returns a nil value and a count of
`0`, which is mirrored by the literal `0` in each `.err` below. -/

/-- The error taxonomy of the decoder.  Each constructor corresponds to one
`errors.New`/`fmt.Errorf` site in the Go source (messages noted in comments). -/
inductive BErr where
  /-- "empty data" -/
  | emptyData
  /-- "unkown type: %c" (sic) -/
  | unknownType (b : Nat)
  /-- "invalid string format: no colon found" -/
  | strNoColon
  /-- "invalid string format: %v" (Atoi failure on the length prefix) -/
  | strAtoi
  /-- "string data too short" -/
  | strTooShort
  /-- a Go runtime panic (negative slice bound); unreachable from `Decode` -/
  | goPanic
  /-- "invalid integer format" -/
  | intBadFormat
  /-- "invalid integer format: no end marker" -/
  | intNoEnd
  /-- "invalid integer format: leading zeros" -/
  | intLeadingZero
  /-- "invalid integer format: negative zero" -/
  | intNegZero
  /-- "invalid integer: %v" (ParseInt failure) -/
  | intInvalid
  /-- "invalid list format" -/
  | listBadFormat
  /-- "invalid list format: no end marker" -/
  | listNoEnd
  /-- "error decoding list item: %v" -/
  | listItem (e : BErr)
  /-- dictionary arm, modelled from the spec: malformed dictionary header -/
  | dictBadFormat
  /-- dictionary arm, modelled from the spec: `UnterminatedDictionary` -/
  | dictNoEnd
  /-- dictionary arm, modelled from the spec: `NonStringKey` -/
  | nonStringKey
  /-- dictionary arm, modelled from the spec: failure decoding a key -/
  | dictKey (e : BErr)
  /-- dictionary arm, modelled from the spec: `DictionaryValueError` -/
  | dictValue (e : BErr)
  /-- fuel exhaustion of the Lean model; corresponds to non-termination of the
  Go loop (which would require a recursive decode to report consuming 0 bytes,
  shown impossible below) -/
  | fuelExhausted
  deriving DecidableEq

/-- Decoded bencode values: the dynamic `interface{}` tree returned by the Go
decoder (string / int64 / `[]interface{}` / `map[string]interface{}`).
The dictionary is an association list with unique keys (Go map). -/
inductive BValue where
  | str (s : List Nat)
  | int (n : Int)
  | list (l : List BValue)
  | dict (d : List (List Nat × BValue))

/-- Result of a decode: the Go `(interface{}, int, error)` triple.  `ok v n`
is a successful decode of `v` consuming `n` bytes; `err e n` is a failure
(the Go code returns `n = 0` at every error site). -/
inductive DRes (α : Type) where
  | ok (v : α) (n : Nat)
  | err (e : BErr) (n : Nat)

/-- ASCII decimal digit test: the `case '0', ..., '9'` dispatch of `Decode`. -/
def isDigit (c : Nat) : Bool := 48 ≤ c && c ≤ 57

/-- Value of a non-empty all-digit ASCII string, otherwise `none`
(the digit-consuming core of Go `strconv.ParseInt`). -/
def digitsVal (s : List Nat) : Option Nat :=
  if s = [] then none
  else if s.all isDigit then some (s.foldl (fun a c => a * 10 + (c - 48)) 0)
  else none

/-- Go `strconv.ParseInt(s, 10, 64)` (also `strconv.Atoi` on 64-bit
platforms): optional sign (`-` 45 or `+` 43), a non-empty run of digits, and a
64-bit signed range check; `none` models a non-nil error. -/
def parseInt64 (s : List Nat) : Option Int :=
  match s with
  | [] => none
  | c :: _ =>
    match digitsVal (if c = 45 ∨ c = 43 then s.tail else s) with
    | none => none
    | some v =>
      if c = 45 then (if v ≤ 2 ^ 63 then some (-(v : Int)) else none)
      else (if v < 2 ^ 63 then some (v : Int) else none)

/-- `decodeString` from `bencode/decoder.go`: scan for the first `':'` (58),
`Atoi` the prefix as the length, bounds-check, slice out the contents.
`goPanic` marks the input where the Go code would panic slicing with a
negative length (unreachable through `Decode`, whose dispatch guarantees a
digit-leading, hence non-negative, length prefix). -/
def decodeString (data : List Nat) : DRes (List Nat) :=
  let pre := data.takeWhile (fun c => c ≠ 58)
  let i := pre.length
  if i ≥ data.length then .err .strNoColon 0
  else
    match parseInt64 pre with
    | none => .err .strAtoi 0
    | some len =>
      if (i : Int) + 1 + len > (data.length : Int) then .err .strTooShort 0
      else if len < 0 then .err .goPanic 0
      else .ok ((data.drop (i + 1)).take len.toNat) (i + 1 + len.toNat)

/-- `decodeInteger` from `bencode/decoder.go`: require `i` (105) first, scan
for the first `e` (101), reject multi-digit bodies with a leading `0` (48) and
bodies starting `-0`, then `ParseInt` the body. -/
def decodeInteger (data : List Nat) : DRes Int :=
  if data.length < 2 ∨ data.head? ≠ some 105 then .err .intBadFormat 0
  else
    let body := (data.drop 1).takeWhile (fun c => c ≠ 101)
    let endIndex := 1 + body.length
    if endIndex ≥ data.length then .err .intNoEnd 0
    else if body.length > 1 ∧ body.head? = some 48 then .err .intLeadingZero 0
    else if body.length > 1 ∧ body.head? = some 45 ∧ body.get? 1 = some 48 then
      .err .intNegZero 0
    else
      match parseInt64 body with
      | none => .err .intInvalid 0
      | some n => .ok n (endIndex + 1)

/-- Last-write-wins insertion into the association list modelling the Go
`map[string]interface{}` the dictionary decoder fills. -/
def upsert (l : List (List Nat × BValue)) (k : List Nat) (v : BValue) :
    List (List Nat × BValue) :=
  match l with
  | [] => [(k, v)]
  | (k', v') :: tl => if k' = k then (k, v) :: tl else (k', v') :: upsert tl k v

/-- The decoder's control state: `top` is an entry into `Decode`, `items` is
the cursor state of `decodeList`'s loop (remaining bytes, bytes consumed so
far including the opening `l`, items accumulated), `pairs` the same for the
dictionary decoder's loop. -/
inductive Mode where
  | top (data : List Nat)
  | items (rest : List Nat) (consumed : Nat) (acc : List BValue)
  | pairs (rest : List Nat) (consumed : Nat) (acc : List (List Nat × BValue))

/-- The bencode decoder: `Decode`, `decodeList` and the dictionary decoder of
the Go source fused into one fuel-indexed function (the fuel argument only
makes the Go loops' termination explicit; `Decode` below supplies enough).

`top` is `Decode` (`bencode/decoder.go` lines 10-25): dispatch on the first
byte — digit → `decodeString`, 105 `i` → `decodeInteger`, 108 `l` →
`decodeList`, 100 `d` → dictionary, otherwise the "unkown type" error.

`items` is the loop of `decodeList` (lines 103-132): until the next byte is
101 `e`, decode one item, on failure wrap it, on success append and advance by
the consumed count; running out of bytes is the "no end marker" error.

Modelled from the spec: the `pairs` arm (`decodeDictionary`) is not in the
provided sources — only its callers (`torrent.Parse`,
`tracker.parseTrackerResponse`) and tests are.  Per spec §4.1: format
`d(<key><value>)*e`, keys must decode as strings (`NonStringKey` otherwise),
missing terminator is `UnterminatedDictionary`, a failure decoding a value is
wrapped (`DictionaryValueError`), last-write-wins on duplicate keys. -/
def run : Nat → Mode → DRes BValue
  | 0, _ => .err .fuelExhausted 0
  | f + 1, .top data =>
    match data with
    | [] => .err .emptyData 0
    | b :: _ =>
      if isDigit b then
        match decodeString data with
        | .ok s n => .ok (.str s) n
        | .err e n => .err e n
      else if b = 105 then
        match decodeInteger data with
        | .ok v n => .ok (.int v) n
        | .err e n => .err e n
      else if b = 108 then
        if data.length < 2 then .err .listBadFormat 0
        else run f (.items (data.drop 1) 1 [])
      else if b = 100 then
        if data.length < 2 then .err .dictBadFormat 0
        else run f (.pairs (data.drop 1) 1 [])
      else .err (.unknownType b) 0
  | f + 1, .items rest consumed acc =>
    match rest with
    | [] => .err .listNoEnd 0
    | b :: _ =>
      if b = 101 then .ok (.list acc) (consumed + 1)
      else
        match run f (.top rest) with
        | .err e _ => .err (.listItem e) 0
        | .ok item n => run f (.items (rest.drop n) (consumed + n) (acc ++ [item]))
  | f + 1, .pairs rest consumed acc =>
    match rest with
    | [] => .err .dictNoEnd 0
    | b :: _ =>
      if b = 101 then .ok (.dict acc) (consumed + 1)
      else
        match run f (.top rest) with
        | .err e _ => .err (.dictKey e) 0
        | .ok (.str key) n =>
          (match run f (.top (rest.drop n)) with
           | .err e _ => .err (.dictValue e) 0
           | .ok v m =>
             run f (.pairs (rest.drop (n + m)) (consumed + n + m) (upsert acc key v)))
        | .ok _ _ => .err .nonStringKey 0

/-- `Decode` from `bencode/decoder.go`: run the decoder with enough fuel for
the whole buffer. -/
def Decode (data : List Nat) : DRes BValue :=
  run (data.length + 1) (.top data)

/-! ## Bencode encoder (`bencode/encoder.go`)

`EncodeDict` sorts the keys of the Go map ascending byte-lexicographically
(`sort.Strings`) and emits `d<key><value>...e`; `encodeValue` dispatches on
the dynamic type of the value. -/

/-- The encoder's input universe: the `interface{}` values `encodeValue`
supports — `string`, `int`/`int64` (both 64-bit, merged), `[]interface{}`,
`map[string]interface{}` (an association list with unique keys), and the
special-cased `[]string`. -/
inductive GoVal where
  | str (s : List Nat)
  | int (n : Int)
  | list (l : List GoVal)
  | dict (d : List (List Nat × GoVal))
  | strList (l : List (List Nat))

/-- Byte-lexicographic `≤` on byte strings: the order `sort.Strings` uses. -/
def keyLEb : List Nat → List Nat → Bool
  | [], _ => true
  | _ :: _, [] => false
  | a :: as, b :: bs => if a < b then true else if b < a then false else keyLEb as bs

/-- Ordered insertion for the insertion sort modelling `sort.Strings` on the
key/value pairs (comparing keys only, so sorting the pairs by key agrees with
Go's sort-the-keys-then-look-up on a map's unique keys). -/
def insortKey (a : List Nat × GoVal) :
    List (List Nat × GoVal) → List (List Nat × GoVal)
  | [] => [a]
  | b :: tl => if keyLEb a.1 b.1 then a :: b :: tl else b :: insortKey a tl

/-- Sort the dictionary's pairs ascending by key (canonical bencode order). -/
def sortPairs (d : List (List Nat × GoVal)) : List (List Nat × GoVal) :=
  d.foldr insortKey []

theorem perm_insortKey (a : List Nat × GoVal) (l : List (List Nat × GoVal)) :
    List.Perm (insortKey a l) (a :: l) := by
  induction l with
  | nil => simp [insortKey]
  | cons b tl ih =>
    simp only [insortKey]
    split
    · exact List.Perm.refl _
    · exact (List.Perm.cons b ih).trans (List.Perm.swap a b tl)

theorem perm_sortPairs (d : List (List Nat × GoVal)) :
    List.Perm (sortPairs d) d := by
  induction d with
  | nil => exact List.Perm.refl _
  | cons a tl ih =>
    exact (perm_insortKey a (sortPairs tl)).trans (List.Perm.cons a ih)

theorem sizeOf_perm {α : Type} [SizeOf α] {l₁ l₂ : List α}
    (h : List.Perm l₁ l₂) : sizeOf l₁ = sizeOf l₂ := by
  induction h with
  | nil => rfl
  | cons a _ ih => simp [ih]
  | swap a b l => simp; omega
  | trans _ _ ih₁ ih₂ => omega

theorem sizeOf_sortPairs (d : List (List Nat × GoVal)) :
    sizeOf (sortPairs d) = sizeOf d :=
  sizeOf_perm (perm_sortPairs d)

theorem mem_sortPairs {kv : List Nat × GoVal} {d : List (List Nat × GoVal)}
    (h : kv ∈ sortPairs d) : kv ∈ d :=
  (perm_sortPairs d).mem_iff.mp h

/-- Little-endian base-10 digit values of `n`, with explicit fuel so that the
definition is structural (hence computable by the kernel); `natDigitsAux n n`
is `Nat.digits 10 n`. -/
def natDigitsAux : Nat → Nat → List Nat
  | _, 0 => []
  | 0, _ + 1 => []
  | f + 1, n + 1 => ((n + 1) % 10) :: natDigitsAux f ((n + 1) / 10)

/-- ASCII decimal representation of a natural number, as emitted by
`strconv.Itoa`/`strconv.FormatInt`: no leading zeros, `"0"` for zero. -/
def natDigits (n : Nat) : List Nat :=
  if n = 0 then [48] else ((natDigitsAux n n).map (fun d => d + 48)).reverse

/-- ASCII decimal representation of an `int64`, as emitted by
`strconv.FormatInt(v, 10)`. -/
def intDigits (n : Int) : List Nat :=
  if n < 0 then 45 :: natDigits (-n).toNat else natDigits n.toNat

/-- The bencode string form `<length>:<contents>` (the `case string` of
`encodeValue`, also used for dictionary keys). -/
def encStr (s : List Nat) : List Nat :=
  natDigits s.length ++ 58 :: s

/-- The `case []string` of `encodeValue`: a list of bencoded strings. -/
def encStrList : List (List Nat) → List Nat
  | [] => []
  | s :: tl => encStr s ++ encStrList tl

mutual

/-- `encodeValue` from `bencode/encoder.go`: strings as `<len>:<bytes>`,
integers as `i<dec>e`, lists as `l<items>e`, dictionaries via `EncodeDict`
(whose body `100 :: encPairs (sortPairs d) ++ [101]` is inlined here),
`[]string` as a list of strings.  Total: every `GoVal` constructor is a
supported type (the Go `UnsupportedType` error is unreachable on them). -/
def encodeValue : GoVal → List Nat
  | .str s => encStr s
  | .int n => 105 :: intDigits n ++ [101]
  | .list l => 108 :: encItems l ++ [101]
  | .dict d => 100 :: encPairs (sortPairs d) ++ [101]
  | .strList l => 108 :: encStrList l ++ [101]
termination_by v => sizeOf v
decreasing_by all_goals (simp [sizeOf_sortPairs] <;> omega)

/-- The item loop of the `case []interface{}` of `encodeValue`. -/
def encItems : List GoVal → List Nat
  | [] => []
  | v :: tl => encodeValue v ++ encItems tl
termination_by l => sizeOf l
decreasing_by all_goals (simp <;> omega)

/-- The key/value emission loop of `EncodeDict` (keys already sorted). -/
def encPairs : List (List Nat × GoVal) → List Nat
  | [] => []
  | (k, v) :: tl => encStr k ++ encodeValue v ++ encPairs tl
termination_by l => sizeOf l
decreasing_by all_goals (simp <;> omega)

end

/-- `EncodeDict` from `bencode/encoder.go`: `d`, then each key (bencoded as a
string) followed by its encoded value in ascending key order, then `e`. -/
def EncodeDict (d : List (List Nat × GoVal)) : List Nat :=
  100 :: encPairs (sortPairs d) ++ [101]

/-- Well-formedness of an encoder input: what a value reachable inside a real
Go `map[string]interface{}` satisfies — map keys unique, `int64`s in 64-bit
range, Go string/slice lengths below `2^63`. -/
inductive WF : GoVal → Prop
  | str {s : List Nat} : s.length < 2 ^ 63 → WF (.str s)
  | int {n : Int} : -(2 ^ 63) ≤ n → n < 2 ^ 63 → WF (.int n)
  | list {l : List GoVal} : (∀ v ∈ l, WF v) → WF (.list l)
  | strList {l : List (List Nat)} : (∀ s ∈ l, s.length < 2 ^ 63) → WF (.strList l)
  | dict {d : List (List Nat × GoVal)} : (d.map Prod.fst).Nodup →
      (∀ kv ∈ d, kv.1.length < 2 ^ 63) → (∀ kv ∈ d, WF kv.2) → WF (.dict d)

/-! ## Decimal printing and parsing round-trip -/

theorem natDigitsAux_eq_digits (f : Nat) :
    ∀ n, n ≤ f → natDigitsAux f n = Nat.digits 10 n := by
  induction f with
  | zero =>
    intro n hn
    have : n = 0 := by omega
    subst this
    simp [natDigitsAux]
  | succ f ih =>
    intro n hn
    match n with
    | 0 => simp [natDigitsAux]
    | m + 1 =>
      rw [Nat.digits_def' (by norm_num : (1:Nat) < 10) (Nat.succ_pos m)]
      simp only [natDigitsAux]
      rw [ih ((m + 1) / 10) (by omega)]

theorem natDigits_zero : natDigits 0 = [48] := rfl

theorem natDigits_eq {n : Nat} (h : n ≠ 0) :
    natDigits n = ((Nat.digits 10 n).map (fun d => d + 48)).reverse := by
  rw [natDigits, if_neg h, natDigitsAux_eq_digits n n le_rfl]

theorem natDigits_all_digits {c : Nat} {n : Nat} (h : c ∈ natDigits n) :
    48 ≤ c ∧ c ≤ 57 := by
  by_cases h0 : n = 0
  · subst h0
    rw [natDigits_zero, List.mem_singleton] at h
    omega
  · rw [natDigits_eq h0, List.mem_reverse] at h
    rcases List.mem_map.mp h with ⟨d, hd, rfl⟩
    have := Nat.digits_lt_base (by norm_num) hd
    omega

theorem natDigits_ne_nil (n : Nat) : natDigits n ≠ [] := by
  by_cases h : n = 0
  · subst h; rw [natDigits_zero]; simp
  · rw [natDigits_eq h]
    simp [(Nat.digits_ne_nil_iff_ne_zero (b := 10)).mpr h]

theorem natDigits_head_ne_zero {n : Nat} (h : n ≠ 0) :
    (natDigits n).head? ≠ some 48 := by
  have hnil : Nat.digits 10 n ≠ [] := (Nat.digits_ne_nil_iff_ne_zero (b := 10)).mpr h
  have hlast := Nat.getLast_digit_ne_zero 10 h
  rw [natDigits_eq h, List.head?_reverse, List.getLast?_map,
    List.getLast?_eq_getLast _ hnil]
  intro hc
  simp only [Option.map_some'] at hc
  have h48 : (Nat.digits 10 n).getLast hnil + 48 = 48 := Option.some.inj hc
  omega

theorem foldl_digits (L : List Nat) (a : Nat) :
    ((L.map (fun d => d + 48)).reverse).foldl (fun acc c => acc * 10 + (c - 48)) a
      = a * 10 ^ L.length + Nat.ofDigits 10 L := by
  induction L generalizing a with
  | nil => simp
  | cons d tl ih =>
    simp only [List.map_cons, List.reverse_cons, List.foldl_append, List.foldl_cons,
      List.foldl_nil, ih, Nat.ofDigits_cons, List.length_cons]
    have : d + 48 - 48 = d := by omega
    rw [this]
    ring

theorem digitsVal_natDigits (n : Nat) : digitsVal (natDigits n) = some n := by
  have hall : (natDigits n).all isDigit = true := by
    rw [List.all_eq_true]
    intro c hc
    have := natDigits_all_digits hc
    simp only [isDigit, Bool.and_eq_true, decide_eq_true_eq]
    omega
  by_cases h0 : n = 0
  · subst h0; decide
  · rw [digitsVal, if_neg (natDigits_ne_nil n), if_pos hall, natDigits_eq h0,
      foldl_digits]
    simp [Nat.ofDigits_digits]

theorem parseInt64_natDigits {n : Nat} (h : n < 2 ^ 63) :
    parseInt64 (natDigits n) = some (n : Int) := by
  rcases hd : natDigits n with _ | ⟨c, cs⟩
  · exact absurd hd (natDigits_ne_nil n)
  · have hc : 48 ≤ c ∧ c ≤ 57 := natDigits_all_digits (hd ▸ List.mem_cons_self c cs)
    have hsign : ¬ (c = 45 ∨ c = 43) := by omega
    have hdv := digitsVal_natDigits n
    rw [hd] at hdv
    simp only [parseInt64, if_neg hsign, hdv, if_neg (by omega : ¬ c = 45), if_pos h]

theorem digitsVal_some_nonneg {s : List Nat} {v : Nat} (h : digitsVal s = some v) :
    s ≠ [] ∧ s.all isDigit = true := by
  rw [digitsVal] at h
  split at h
  · exact absurd h (by simp)
  · split at h
    · exact ⟨by assumption, by assumption⟩
    · exact absurd h (by simp)

/-- Over a prefix of digits, `parseInt64` parses a non-negative value. -/
theorem parseInt64_nonneg {s : List Nat} {v : Int} {c : Nat} {cs : List Nat}
    (hs : s = c :: cs) (hc : isDigit c = true) (h : parseInt64 s = some v) :
    0 ≤ v := by
  subst hs
  have hc' : 48 ≤ c ∧ c ≤ 57 := by
    simp only [isDigit, Bool.and_eq_true, decide_eq_true_eq] at hc
    exact hc
  have hsign : ¬ (c = 45 ∨ c = 43) := by omega
  rw [parseInt64] at h
  simp only [if_neg hsign] at h
  rcases hdv : digitsVal (c :: cs) with _ | w
  · rw [hdv] at h; exact absurd h (by simp)
  · rw [hdv] at h
    simp only [if_neg (by omega : ¬ c = 45)] at h
    split at h
    · cases Option.some.inj h
      exact Int.natCast_nonneg w
    · exact absurd h (by simp)

/-! ## Decoding what the encoder produced -/

theorem takeWhile_append_sentinel (p : Nat → Bool) (xs : List Nat) (y : Nat)
    (ys : List Nat) (hxs : ∀ c ∈ xs, p c = true) (hy : p y = false) :
    (xs ++ y :: ys).takeWhile p = xs := by
  induction xs with
  | nil => simp [List.takeWhile_cons, hy]
  | cons a tl ih =>
    have ha : p a = true := hxs a (List.mem_cons_self a tl)
    simp only [List.cons_append, List.takeWhile_cons, ha, if_true]
    rw [ih (fun c hc => hxs c (List.mem_cons_of_mem a hc))]

theorem decodeString_enc (s rest : List Nat) (h : s.length < 2 ^ 63) :
    decodeString (encStr s ++ rest) = .ok s (encStr s).length := by
  have hshape : encStr s ++ rest = natDigits s.length ++ 58 :: (s ++ rest) := by
    simp [encStr]
  have hpre : (encStr s ++ rest).takeWhile (fun c => c ≠ 58) = natDigits s.length := by
    rw [hshape]
    exact takeWhile_append_sentinel _ _ _ _
      (fun c hc => by
        have := natDigits_all_digits hc
        simp only [ne_eq, decide_eq_true_eq]
        omega)
      (by simp)
  have hlen : (encStr s ++ rest).length
      = (natDigits s.length).length + 1 + s.length + rest.length := by
    rw [hshape]; simp; omega
  have hne := natDigits_ne_nil s.length
  have hdpos : 1 ≤ (natDigits s.length).length := by
    cases hd : natDigits s.length with
    | nil => exact absurd hd hne
    | cons a l => simp
  rw [decodeString]
  simp only [hpre]
  rw [if_neg (by omega : ¬ (natDigits s.length).length ≥ (encStr s ++ rest).length)]
  simp only [parseInt64_natDigits h]
  rw [if_neg (by push_cast [hlen]; omega), if_neg (by omega : ¬ ((s.length : Int) < 0))]
  have hdrop : (encStr s ++ rest).drop ((natDigits s.length).length + 1) = s ++ rest := by
    rw [hshape]
    have : natDigits s.length ++ 58 :: (s ++ rest)
        = (natDigits s.length ++ [58]) ++ (s ++ rest) := by simp
    rw [this]
    have hl : (natDigits s.length ++ [58]).length = (natDigits s.length).length + 1 := by
      simp
    rw [← hl, List.drop_left]
  rw [hdrop]
  simp only [Int.toNat_natCast, List.take_left]
  have : (encStr s).length = (natDigits s.length).length + 1 + s.length := by
    simp [encStr]; omega
  rw [this]

/-! ## The value a decode of an encode comes back as -/

mutual

/-- The `BValue` the decoder returns for an encoded `GoVal`: identical except
that `[]string` comes back as a list of strings and dictionary pairs come back
in canonical (sorted) key order. -/
def toB : GoVal → BValue
  | .str s => .str s
  | .int n => .int n
  | .list l => .list (toBList l)
  | .dict d => .dict (toBPairs (sortPairs d))
  | .strList l => .list (l.map BValue.str)
termination_by v => sizeOf v
decreasing_by all_goals (simp [sizeOf_sortPairs] <;> omega)

def toBList : List GoVal → List BValue
  | [] => []
  | v :: tl => toB v :: toBList tl
termination_by l => sizeOf l
decreasing_by all_goals (simp <;> omega)

def toBPairs : List (List Nat × GoVal) → List (List Nat × BValue)
  | [] => []
  | (k, v) :: tl => (k, toB v) :: toBPairs tl
termination_by l => sizeOf l
decreasing_by all_goals (simp <;> omega)

end

/-- The state of the Go map after inserting every pair in order
(last-write-wins), starting from `acc`. -/
def upsertAll (acc : List (List Nat × BValue)) :
    List (List Nat × GoVal) → List (List Nat × BValue)
  | [] => acc
  | (k, v) :: tl => upsertAll (upsert acc k (toB v)) tl

/-! ## Integer encoding facts -/

theorem intDigits_ne_nil (z : Int) : intDigits z ≠ [] := by
  rw [intDigits]
  split
  · simp
  · exact natDigits_ne_nil _

theorem intDigits_all {c : Nat} {z : Int} (h : c ∈ intDigits z) :
    c = 45 ∨ (48 ≤ c ∧ c ≤ 57) := by
  rw [intDigits] at h
  split at h
  · rcases List.mem_cons.mp h with rfl | h'
    · exact Or.inl rfl
    · exact Or.inr (natDigits_all_digits h')
  · exact Or.inr (natDigits_all_digits h)

theorem parseInt64_intDigits {z : Int} (h1 : -(2 ^ 63) ≤ z) (h2 : z < 2 ^ 63) :
    parseInt64 (intDigits z) = some z := by
  rw [intDigits]
  split
  · next hneg =>
    have hm : ((-z).toNat : Int) = -z := Int.toNat_of_nonneg (by omega)
    have h63 : (-z).toNat ≤ 2 ^ 63 := by omega
    rw [parseInt64]
    simp [digitsVal_natDigits, h63, hm]
    omega
  · next hpos =>
    have hz : ((z.toNat : Int)) = z := Int.toNat_of_nonneg (by omega)
    rw [parseInt64_natDigits (by omega : z.toNat < 2 ^ 63), hz]

theorem decodeInteger_enc (z : Int) (rest : List Nat) (h1 : -(2 ^ 63) ≤ z)
    (h2 : z < 2 ^ 63) :
    decodeInteger (105 :: (intDigits z ++ 101 :: rest))
      = .ok z ((intDigits z).length + 2) := by
  set data := 105 :: (intDigits z ++ 101 :: rest) with hdata
  have hlen : data.length = (intDigits z).length + 2 + rest.length := by
    rw [hdata]; simp; omega
  have hbody : (data.drop 1).takeWhile (fun c => c ≠ 101) = intDigits z := by
    rw [hdata]
    simp only [List.drop_succ_cons, List.drop_zero]
    exact takeWhile_append_sentinel _ _ _ _
      (fun c hc => by
        rcases intDigits_all hc with h | h <;> (simp only [ne_eq, decide_eq_true_eq]; omega))
      (by simp)
  have hdpos : 1 ≤ (intDigits z).length := by
    cases hd : intDigits z with
    | nil => exact absurd hd (intDigits_ne_nil z)
    | cons a l => simp
  rw [decodeInteger, if_neg (by rw [hdata]; simp; omega)]
  simp only [hbody]
  rw [if_neg (by omega : ¬ 1 + (intDigits z).length ≥ data.length)]
  have hlz : ¬ ((intDigits z).length > 1 ∧ (intDigits z).head? = some 48) := by
    rintro ⟨hgt, hhd⟩
    by_cases hneg : z < 0
    · rw [intDigits, if_pos hneg] at hhd
      simp at hhd
    · rw [intDigits, if_neg hneg] at hhd hgt
      by_cases h0 : z.toNat = 0
      · rw [h0, natDigits_zero] at hgt; simp at hgt
      · exact natDigits_head_ne_zero h0 hhd
  have hnz : ¬ ((intDigits z).length > 1 ∧ (intDigits z).head? = some 45 ∧
      (intDigits z).get? 1 = some 48) := by
    rintro ⟨hgt, hhd, hg1⟩
    by_cases hneg : z < 0
    · rw [intDigits, if_pos hneg] at hg1
      have hm0 : (-z).toNat ≠ 0 := by omega
      have hg0 : (natDigits (-z).toNat).get? 0 = some 48 := hg1
      rw [List.get?_zero] at hg0
      exact natDigits_head_ne_zero hm0 hg0
    · rw [intDigits, if_neg hneg] at hhd
      rcases hd : natDigits z.toNat with _ | ⟨c, cs⟩
      · exact absurd hd (natDigits_ne_nil _)
      · rw [hd] at hhd
        have := natDigits_all_digits (hd ▸ List.mem_cons_self c cs)
        simp only [List.head?_cons, Option.some.injEq] at hhd
        omega
  rw [if_neg hlz, if_neg hnz]
  simp only [parseInt64_intDigits h1 h2]
  have : 1 + (intDigits z).length + 1 = (intDigits z).length + 2 := by omega
  rw [this]

/-! ## Shape facts about encoder output -/

theorem encStr_cons (s : List Nat) :
    ∃ c cs, encStr s = c :: cs ∧ isDigit c = true := by
  rcases hd : natDigits s.length with _ | ⟨c, cs⟩
  · exact absurd hd (natDigits_ne_nil _)
  · have hc := natDigits_all_digits (hd ▸ List.mem_cons_self c cs)
    refine ⟨c, cs ++ 58 :: s, ?_, ?_⟩
    · rw [encStr, hd]; simp
    · simp only [isDigit, Bool.and_eq_true, decide_eq_true_eq]; omega

theorem encStr_length_ge2 (s : List Nat) : 2 ≤ (encStr s).length := by
  have h1 : 1 ≤ (natDigits s.length).length :=
    List.length_pos.mpr (natDigits_ne_nil _)
  rw [encStr]
  simp
  omega

theorem encodeValue_cons (v : GoVal) :
    ∃ c cs, encodeValue v = c :: cs ∧ c ≠ 101 := by
  cases v with
  | str s =>
    rcases encStr_cons s with ⟨c, cs, h, hc⟩
    refine ⟨c, cs, by simp [encodeValue, h], ?_⟩
    simp only [isDigit, Bool.and_eq_true, decide_eq_true_eq] at hc
    omega
  | int n => exact ⟨105, intDigits n ++ [101], by simp [encodeValue], by omega⟩
  | list l => exact ⟨108, encItems l ++ [101], by simp [encodeValue], by omega⟩
  | dict d => exact ⟨100, encPairs (sortPairs d) ++ [101], by simp [encodeValue], by omega⟩
  | strList l => exact ⟨108, encStrList l ++ [101], by simp [encodeValue], by omega⟩

theorem encodeValue_length_ge2 (v : GoVal) : 2 ≤ (encodeValue v).length := by
  cases v with
  | str s => simpa [encodeValue] using encStr_length_ge2 s
  | int n =>
    have h1 : 1 ≤ (intDigits n).length := List.length_pos.mpr (intDigits_ne_nil n)
    simp [encodeValue] <;> omega
  | list l => simp [encodeValue] <;> omega
  | dict d => simp [encodeValue] <;> omega
  | strList l => simp [encodeValue] <;> omega

/-! ## Decoding encoder output through `run` -/

theorem run_top_str (s : List Nat) (h : s.length < 2 ^ 63) (f : Nat) (hf : 1 ≤ f)
    (rest : List Nat) :
    run f (.top (encStr s ++ rest)) = .ok (.str s) (encStr s).length := by
  obtain ⟨f', rfl⟩ : ∃ f', f = f' + 1 := ⟨f - 1, by omega⟩
  rcases encStr_cons s with ⟨c, cs, hcons, hdig⟩
  have hshape : encStr s ++ rest = c :: (cs ++ rest) := by rw [hcons]; simp
  rw [hshape]
  simp only [run]
  rw [if_pos hdig, ← hshape]
  simp only [decodeString_enc s rest h]

theorem run_top_int (z : Int) (h1 : -(2 ^ 63) ≤ z) (h2 : z < 2 ^ 63) (f : Nat)
    (hf : 1 ≤ f) (rest : List Nat) :
    run f (.top (encodeValue (.int z) ++ rest))
      = .ok (.int z) (encodeValue (.int z)).length := by
  obtain ⟨f', rfl⟩ : ∃ f', f = f' + 1 := ⟨f - 1, by omega⟩
  have hshape : encodeValue (.int z) ++ rest = 105 :: (intDigits z ++ 101 :: rest) := by
    simp [encodeValue]
  rw [hshape]
  simp only [run]
  simp only [if_true]
  simp only [decodeInteger_enc z rest h1 h2]
  rw [if_neg (by decide : ¬ isDigit 105 = true)]
  have : (encodeValue (.int z)).length = (intDigits z).length + 2 := by
    simp [encodeValue]
  rw [this]

theorem run_items (l : List GoVal)
    (ih : ∀ v ∈ l, ∀ f rest, (encodeValue v).length ≤ f →
      run f (.top (encodeValue v ++ rest)) = .ok (toB v) (encodeValue v).length) :
    ∀ f consumed acc rest, (encItems l).length + 1 ≤ f →
      run f (.items (encItems l ++ 101 :: rest) consumed acc)
        = .ok (.list (acc ++ toBList l)) (consumed + (encItems l).length + 1) := by
  induction l with
  | nil =>
    intro f consumed acc rest hf
    obtain ⟨f', rfl⟩ : ∃ f', f = f' + 1 := ⟨f - 1, by omega⟩
    simp [run, encItems, toBList]
  | cons v tl ihtl =>
    intro f consumed acc rest hf
    have hlv := encodeValue_length_ge2 v
    have hitems : encItems (v :: tl) = encodeValue v ++ encItems tl := by
      simp [encItems]
    have hflen : (encodeValue v).length + (encItems tl).length + 1 ≤ f := by
      rw [hitems] at hf; simp at hf; omega
    obtain ⟨f', rfl⟩ : ∃ f', f = f' + 1 := ⟨f - 1, by omega⟩
    rcases encodeValue_cons v with ⟨c, cs, hcons, hne⟩
    have hshape : encItems (v :: tl) ++ 101 :: rest
        = c :: (cs ++ (encItems tl ++ 101 :: rest)) := by
      rw [hitems, hcons]; simp
    have hcshape : c :: (cs ++ (encItems tl ++ 101 :: rest))
        = encodeValue v ++ (encItems tl ++ 101 :: rest) := by
      rw [hcons]; simp
    rw [hshape]
    simp only [run]
    rw [if_neg hne]
    have htop : run f' (.top (c :: (cs ++ (encItems tl ++ 101 :: rest))))
        = .ok (toB v) (encodeValue v).length := by
      rw [hcshape]
      exact ih v (List.mem_cons_self v tl) f' _ (by omega)
    simp only [htop]
    have hdrop : (c :: (cs ++ (encItems tl ++ 101 :: rest))).drop (encodeValue v).length
        = encItems tl ++ 101 :: rest := by
      rw [hcshape, List.drop_left]
    rw [hdrop,
      ihtl (fun w hw => ih w (List.mem_cons_of_mem _ hw)) f'
        (consumed + (encodeValue v).length) (acc ++ [toB v]) rest (by omega)]
    have hval2 : (acc ++ [toB v]) ++ toBList tl = acc ++ toBList (v :: tl) := by
      simp [toBList]
    have hcnt : consumed + (encodeValue v).length + (encItems tl).length + 1
        = consumed + (encItems (v :: tl)).length + 1 := by
      rw [hitems]
      simp only [List.length_append]
      omega
    rw [hval2, hcnt]

theorem run_pairs (ps : List (List Nat × GoVal))
    (ih : ∀ kv ∈ ps, ∀ f rest, (encodeValue kv.2).length ≤ f →
      run f (.top (encodeValue kv.2 ++ rest)) = .ok (toB kv.2) (encodeValue kv.2).length)
    (ihk : ∀ kv ∈ ps, kv.1.length < 2 ^ 63) :
    ∀ f consumed acc rest, (encPairs ps).length + 1 ≤ f →
      run f (.pairs (encPairs ps ++ 101 :: rest) consumed acc)
        = .ok (.dict (upsertAll acc ps)) (consumed + (encPairs ps).length + 1) := by
  induction ps with
  | nil =>
    intro f consumed acc rest hf
    obtain ⟨f', rfl⟩ : ∃ f', f = f' + 1 := ⟨f - 1, by omega⟩
    simp [run, encPairs, upsertAll]
  | cons kv tl ihtl =>
    rcases kv with ⟨k, v⟩
    intro f consumed acc rest hf
    have hlv := encodeValue_length_ge2 v
    have hlk := encStr_length_ge2 k
    have hpairs : encPairs ((k, v) :: tl) = encStr k ++ (encodeValue v ++ encPairs tl) := by
      simp [encPairs]
    have hflen : (encStr k).length + (encodeValue v).length + (encPairs tl).length + 1 ≤ f := by
      rw [hpairs] at hf; simp at hf; omega
    obtain ⟨f', rfl⟩ : ∃ f', f = f' + 1 := ⟨f - 1, by omega⟩
    rcases encStr_cons k with ⟨c, cs, hcons, hdig⟩
    have hne : c ≠ 101 := by
      simp only [isDigit, Bool.and_eq_true, decide_eq_true_eq] at hdig
      omega
    have hshape : encPairs ((k, v) :: tl) ++ 101 :: rest
        = c :: (cs ++ (encodeValue v ++ (encPairs tl ++ 101 :: rest))) := by
      rw [hpairs, hcons]; simp
    have hcshape : c :: (cs ++ (encodeValue v ++ (encPairs tl ++ 101 :: rest)))
        = encStr k ++ (encodeValue v ++ (encPairs tl ++ 101 :: rest)) := by
      rw [hcons]; simp
    rw [hshape]
    simp only [run]
    rw [if_neg hne]
    have hkey : run f' (.top (c :: (cs ++ (encodeValue v ++ (encPairs tl ++ 101 :: rest)))))
        = .ok (.str k) (encStr k).length := by
      rw [hcshape]
      exact run_top_str k (ihk (k, v) (List.mem_cons_self _ _)) f' (by omega) _
    simp only [hkey]
    have hdropk : (c :: (cs ++ (encodeValue v ++ (encPairs tl ++ 101 :: rest)))).drop
        (encStr k).length = encodeValue v ++ (encPairs tl ++ 101 :: rest) := by
      rw [hcshape, List.drop_left]
    rw [hdropk]
    have hval : run f' (.top (encodeValue v ++ (encPairs tl ++ 101 :: rest)))
        = .ok (toB v) (encodeValue v).length :=
      ih (k, v) (List.mem_cons_self _ _) f' _
        (by show (encodeValue v).length ≤ f'; omega)
    simp only [hval]
    have hdropv : (c :: (cs ++ (encodeValue v ++ (encPairs tl ++ 101 :: rest)))).drop
        ((encStr k).length + (encodeValue v).length)
        = encPairs tl ++ 101 :: rest := by
      have : c :: (cs ++ (encodeValue v ++ (encPairs tl ++ 101 :: rest)))
          = (encStr k ++ encodeValue v) ++ (encPairs tl ++ 101 :: rest) := by
        rw [hcons]; simp
      rw [this]
      have hl : (encStr k ++ encodeValue v).length
          = (encStr k).length + (encodeValue v).length := by simp
      rw [← hl, List.drop_left]
    rw [hdropv,
      ihtl (fun w hw => ih w (List.mem_cons_of_mem _ hw))
        (fun w hw => ihk w (List.mem_cons_of_mem _ hw)) f'
        (consumed + (encStr k).length + (encodeValue v).length)
        (upsert acc k (toB v)) rest (by omega)]
    have hval2 : upsertAll (upsert acc k (toB v)) tl = upsertAll acc ((k, v) :: tl) := by
      simp [upsertAll]
    have hcnt : consumed + (encStr k).length + (encodeValue v).length
          + (encPairs tl).length + 1
        = consumed + (encPairs ((k, v) :: tl)).length + 1 := by
      rw [hpairs]
      simp only [List.length_append]
      omega
    rw [hval2, hcnt]

theorem upsert_not_mem {acc : List (List Nat × BValue)} {k : List Nat} {v : BValue}
    (h : k ∉ acc.map Prod.fst) : upsert acc k v = acc ++ [(k, v)] := by
  induction acc with
  | nil => rfl
  | cons kv tl ih =>
    rcases kv with ⟨k', v'⟩
    simp only [List.map_cons, List.mem_cons] at h
    push_neg at h
    rw [upsert, if_neg (by simpa [eq_comm] using h.1), ih h.2]
    simp

theorem upsertAll_nodup (ps : List (List Nat × GoVal)) :
    ∀ acc : List (List Nat × BValue), (ps.map Prod.fst).Nodup →
      (∀ k ∈ ps.map Prod.fst, k ∉ acc.map Prod.fst) →
      upsertAll acc ps = acc ++ toBPairs ps := by
  induction ps with
  | nil => intro acc _ _; simp [upsertAll, toBPairs]
  | cons kv tl ih =>
    rcases kv with ⟨k, v⟩
    intro acc hnd hdisj
    simp only [List.map_cons, List.nodup_cons] at hnd
    rw [upsertAll,
      upsert_not_mem (hdisj k (by simp)),
      ih (acc ++ [(k, toB v)]) hnd.2 ?_]
    · simp [toBPairs]
    · intro k' hk'
      simp only [List.map_append, List.mem_append]
      push_neg
      refine ⟨hdisj k' (by simp [hk']), ?_⟩
      simp only [List.map_cons, List.map_nil, List.mem_singleton]
      intro hkk
      exact hnd.1 (hkk ▸ hk')

theorem encStrList_eq (l : List (List Nat)) :
    encStrList l = encItems (l.map GoVal.str) := by
  induction l with
  | nil => simp [encStrList, encItems]
  | cons s tl ih => simp [encStrList, encItems, encodeValue, ih]

theorem toBList_map_str (l : List (List Nat)) :
    toBList (l.map GoVal.str) = l.map BValue.str := by
  induction l with
  | nil => simp [toBList]
  | cons s tl ih => simp [toBList, toB, ih]

/-- Decoding anything `encodeValue` produced, with fuel at least the number of
encoded bytes, succeeds with the expected value and consumes exactly the
encoded bytes, whatever follows them. -/
theorem run_top_enc : ∀ (v : GoVal), WF v →
    ∀ f rest, (encodeValue v).length ≤ f →
      run f (.top (encodeValue v ++ rest)) = .ok (toB v) (encodeValue v).length
  | .str s, hwf => by
    intro f rest hf
    have hs : s.length < 2 ^ 63 := by cases hwf with | str hs => exact hs
    have h3 := encStr_length_ge2 s
    have heq : encodeValue (.str s) = encStr s := by simp [encodeValue]
    rw [heq] at hf ⊢
    have ht : toB (.str s) = .str s := by simp [toB]
    rw [ht]
    exact run_top_str s hs f (by omega) rest
  | .int n, hwf => by
    intro f rest hf
    have h1 : -(2 ^ 63) ≤ n := by cases hwf with | int h1 h2 => exact h1
    have h2 : n < 2 ^ 63 := by cases hwf with | int h1 h2 => exact h2
    have ht : toB (.int n) = .int n := by simp [toB]
    rw [ht]
    exact run_top_int n h1 h2 f (by have := encodeValue_length_ge2 (.int n); omega) rest
  | .list l, hwf => by
    intro f rest hf
    have hwl : ∀ v ∈ l, WF v := by cases hwf with | list h => exact h
    have h2 := encodeValue_length_ge2 (.list l)
    obtain ⟨f', rfl⟩ : ∃ f', f = f' + 1 := ⟨f - 1, by omega⟩
    have hshape : encodeValue (.list l) ++ rest = 108 :: (encItems l ++ 101 :: rest) := by
      simp [encodeValue]
    have hlen : (encodeValue (.list l)).length = (encItems l).length + 2 := by
      simp [encodeValue]
    rw [hshape]
    simp only [run]
    rw [if_neg (by decide : ¬ isDigit 108 = true)]
    simp only [if_true]
    rw [if_neg (by simp only [List.length_cons, List.length_append]; omega :
      ¬ (108 :: (encItems l ++ 101 :: rest)).length < 2)]
    simp only [List.drop_succ_cons, List.drop_zero]
    rw [run_items l (fun w hw => run_top_enc w (hwl w hw)) f' 1 [] rest
      (by rw [hlen] at hf; omega)]
    rw [hlen]
    have hc : 1 + (encItems l).length + 1 = (encItems l).length + 2 := by omega
    rw [hc]
    simp [toB]
  | .dict d, hwf => by
    intro f rest hf
    have hwd : ∀ kv ∈ d, WF kv.2 := by cases hwf with | dict a b c => exact c
    have hkd : ∀ kv ∈ d, kv.1.length < 2 ^ 63 := by
      cases hwf with | dict a b c => exact b
    have h2 := encodeValue_length_ge2 (.dict d)
    obtain ⟨f', rfl⟩ : ∃ f', f = f' + 1 := ⟨f - 1, by omega⟩
    have hshape : encodeValue (.dict d) ++ rest
        = 100 :: (encPairs (sortPairs d) ++ 101 :: rest) := by
      simp [encodeValue]
    have hlen : (encodeValue (.dict d)).length = (encPairs (sortPairs d)).length + 2 := by
      simp [encodeValue]
    rw [hshape]
    simp only [run]
    rw [if_neg (by decide : ¬ isDigit 100 = true)]
    simp only [if_true]
    rw [if_neg (by simp only [List.length_cons, List.length_append]; omega :
      ¬ (100 :: (encPairs (sortPairs d) ++ 101 :: rest)).length < 2)]
    simp only [List.drop_succ_cons, List.drop_zero]
    rw [run_pairs (sortPairs d)
      (fun kv hkv => run_top_enc kv.2 (hwd kv (mem_sortPairs hkv)))
      (fun kv hkv => hkd kv (mem_sortPairs hkv)) f' 1 [] rest
      (by rw [hlen] at hf; omega)]
    have hnd : ((sortPairs d).map Prod.fst).Nodup := by
      have hperm := (perm_sortPairs d).map Prod.fst
      have hnd0 : (d.map Prod.fst).Nodup := by cases hwf with | dict a b c => exact a
      exact (hperm.nodup_iff).mpr hnd0
    rw [upsertAll_nodup (sortPairs d) [] hnd (by simp), hlen]
    have hc : 1 + (encPairs (sortPairs d)).length + 1
        = (encPairs (sortPairs d)).length + 2 := by omega
    rw [hc]
    simp [toB]
    omega
  | .strList l, hwf => by
    intro f rest hf
    have hls : ∀ s ∈ l, s.length < 2 ^ 63 := by cases hwf with | strList h => exact h
    have h2 := encodeValue_length_ge2 (.strList l)
    obtain ⟨f', rfl⟩ : ∃ f', f = f' + 1 := ⟨f - 1, by omega⟩
    have hshape : encodeValue (.strList l) ++ rest
        = 108 :: (encItems (l.map GoVal.str) ++ 101 :: rest) := by
      simp [encodeValue, encStrList_eq]
    have hlen : (encodeValue (.strList l)).length
        = (encItems (l.map GoVal.str)).length + 2 := by
      simp [encodeValue, encStrList_eq]
    rw [hshape]
    simp only [run]
    rw [if_neg (by decide : ¬ isDigit 108 = true)]
    simp only [if_true]
    rw [if_neg (by simp only [List.length_cons, List.length_append]; omega :
      ¬ (108 :: (encItems (l.map GoVal.str) ++ 101 :: rest)).length < 2)]
    simp only [List.drop_succ_cons, List.drop_zero]
    rw [run_items (l.map GoVal.str) ?_ f' 1 [] rest (by rw [hlen] at hf; omega)]
    · rw [hlen]
      have hc : 1 + (encItems (l.map GoVal.str)).length + 1
          = (encItems (l.map GoVal.str)).length + 2 := by omega
      rw [hc]
      simp [toB, toBList_map_str]
    · intro w hw g wrest hg
      rcases List.mem_map.mp hw with ⟨s, hs, rfl⟩
      have hse : encodeValue (GoVal.str s) = encStr s := by simp [encodeValue]
      rw [hse] at hg ⊢
      have : toB (GoVal.str s) = .str s := by simp [toB]
      rw [this]
      exact run_top_str s (hls s hs) g (by have := encStr_length_ge2 s; omega) wrest
termination_by v _ => sizeOf v
decreasing_by
  · have := List.sizeOf_lt_of_mem hw
    simp
    omega
  · have h1 := List.sizeOf_lt_of_mem (mem_sortPairs hkv)
    have h2 : sizeOf kv.2 < sizeOf kv := by cases kv; simp <;> omega
    simp
    omega

/-! ## Dictionary lookup (the observable behaviour of the decoded Go map) -/

/-- First-match association lookup: `dict[key]` on the encoder side. -/
def lookupGo (k : List Nat) : List (List Nat × GoVal) → Option GoVal
  | [] => none
  | (k', v) :: tl => if k' = k then some v else lookupGo k tl

/-- First-match association lookup on the decoded side. -/
def lookupB (k : List Nat) : List (List Nat × BValue) → Option BValue
  | [] => none
  | (k', v) :: tl => if k' = k then some v else lookupB k tl

theorem lookupB_toBPairs (k : List Nat) (ps : List (List Nat × GoVal)) :
    lookupB k (toBPairs ps) = (lookupGo k ps).map toB := by
  induction ps with
  | nil => simp [toBPairs, lookupB, lookupGo]
  | cons kv tl ih =>
    rcases kv with ⟨k', v⟩
    rw [toBPairs, lookupB, lookupGo]
    split
    · simp
    · exact ih

theorem lookupGo_eq_none_iff (k : List Nat) (ps : List (List Nat × GoVal)) :
    lookupGo k ps = none ↔ k ∉ ps.map Prod.fst := by
  induction ps with
  | nil => simp [lookupGo]
  | cons kv tl ih =>
    rcases kv with ⟨k', v⟩
    rw [lookupGo]
    split
    · next heq => simp [heq]
    · next hne =>
      simp only [List.map_cons, List.mem_cons, ih]
      constructor
      · intro hk h
        rcases h with h1 | h2
        · exact hne h1.symm
        · exact hk h2
      · intro hk hmem
        exact hk (Or.inr hmem)

theorem lookupGo_eq_some_iff {k : List Nat} {v : GoVal} {ps : List (List Nat × GoVal)}
    (hnd : (ps.map Prod.fst).Nodup) :
    lookupGo k ps = some v ↔ (k, v) ∈ ps := by
  induction ps with
  | nil => simp [lookupGo]
  | cons kv tl ih =>
    rcases kv with ⟨k', v'⟩
    simp only [List.map_cons, List.nodup_cons] at hnd
    rw [lookupGo]
    split
    · next heq =>
      subst heq
      constructor
      · intro h
        cases Option.some.inj h
        exact List.mem_cons_self _ _
      · intro hmem
        rcases List.mem_cons.mp hmem with heq2 | hmem2
        · have hv : v = v' := (Prod.mk.injEq _ _ _ _ ▸ heq2).2
          exact congrArg some hv.symm
        · exact absurd (List.mem_map_of_mem Prod.fst hmem2) hnd.1
    · next hne =>
      rw [ih hnd.2]
      simp only [List.mem_cons, Prod.mk.injEq]
      constructor
      · exact Or.inr
      · rintro (⟨rfl, rfl⟩ | hmem)
        · exact absurd rfl hne
        · exact hmem

theorem lookupGo_perm {ps qs : List (List Nat × GoVal)} (hperm : List.Perm ps qs)
    (hnd : (ps.map Prod.fst).Nodup) (k : List Nat) :
    lookupGo k ps = lookupGo k qs := by
  have hndq : (qs.map Prod.fst).Nodup := ((hperm.map Prod.fst).nodup_iff).mp hnd
  rcases hq : lookupGo k ps with _ | v
  · rw [lookupGo_eq_none_iff] at hq
    rw [eq_comm, lookupGo_eq_none_iff]
    intro hmem
    exact hq (((hperm.map Prod.fst).mem_iff).mpr hmem)
  · rw [lookupGo_eq_some_iff hnd] at hq
    rw [eq_comm, lookupGo_eq_some_iff hndq]
    exact hperm.mem_iff.mp hq



/-! ## Consumed-byte accounting (decoder invariant) -/

theorem decodeString_consumed (data : List Nat) :
    (∀ s n, decodeString data = .ok s n → 0 < n ∧ n ≤ data.length) ∧
    (∀ e n, decodeString data = .err e n → n = 0) := by
  have hpre : (data.takeWhile (fun c => c ≠ 58)).length ≤ data.length :=
    (List.takeWhile_sublist _).length_le
  constructor
  · intro s n h
    rw [decodeString] at h
    split at h
    · exact nomatch h
    · split at h
      · exact nomatch h
      · next len heq =>
        split at h
        · exact nomatch h
        · next hshort =>
          split at h
          · exact nomatch h
          · next hneg =>
            rcases DRes.ok.inj h with ⟨-, hn⟩
            have hl : (len.toNat : Int) = len := Int.toNat_of_nonneg (by omega)
            omega
  · intro e n h
    rw [decodeString] at h
    split at h
    · exact (DRes.err.inj h).2.symm
    · split at h
      · exact (DRes.err.inj h).2.symm
      · split at h
        · exact (DRes.err.inj h).2.symm
        · split at h
          · exact (DRes.err.inj h).2.symm
          · exact nomatch h

theorem decodeInteger_consumed (data : List Nat) :
    (∀ v n, decodeInteger data = .ok v n → 0 < n ∧ n ≤ data.length) ∧
    (∀ e n, decodeInteger data = .err e n → n = 0) := by
  constructor
  · intro v n h
    simp only [decodeInteger] at h
    split at h
    · exact nomatch h
    · split at h
      · exact nomatch h
      · next hend =>
        split at h
        · exact nomatch h
        · split at h
          · exact nomatch h
          · split at h
            · exact nomatch h
            · rcases DRes.ok.inj h with ⟨-, hn⟩
              omega
  · intro e n h
    simp only [decodeInteger] at h
    split at h
    · exact (DRes.err.inj h).2.symm
    · split at h
      · exact (DRes.err.inj h).2.symm
      · split at h
        · exact (DRes.err.inj h).2.symm
        · split at h
          · exact (DRes.err.inj h).2.symm
          · split at h
            · exact (DRes.err.inj h).2.symm
            · exact nomatch h

/-- The decoder's consumption invariant, by induction on fuel: a success
reports strictly positive progress bounded by the bytes available, and every
failure reports a consumed count of `0`. -/
theorem run_consumed (f : Nat) :
    (∀ data v n, run f (.top data) = .ok v n → 0 < n ∧ n ≤ data.length) ∧
    (∀ data e n, run f (.top data) = .err e n → n = 0) ∧
    (∀ rest c acc v n, run f (.items rest c acc) = .ok v n →
      c < n ∧ n ≤ c + rest.length) ∧
    (∀ rest c acc e n, run f (.items rest c acc) = .err e n → n = 0) ∧
    (∀ rest c acc v n, run f (.pairs rest c acc) = .ok v n →
      c < n ∧ n ≤ c + rest.length) ∧
    (∀ rest c acc e n, run f (.pairs rest c acc) = .err e n → n = 0) := by
  induction f with
  | zero =>
    exact ⟨fun data v n h => (nomatch h), fun data e n h => (DRes.err.inj h).2.symm,
      fun rest c acc v n h => (nomatch h), fun rest c acc e n h => (DRes.err.inj h).2.symm,
      fun rest c acc v n h => (nomatch h), fun rest c acc e n h => (DRes.err.inj h).2.symm⟩
  | succ f ih =>
    obtain ⟨iht, ihte, ihi, ihie, ihp, ihpe⟩ := ih
    refine ⟨?_, ?_, ?_, ?_, ?_, ?_⟩
    · intro data v n h
      simp only [run] at h
      split at h
      · exact nomatch h
      · next b bs =>
        split at h
        · split at h
          · next s n0 heq =>
            rcases DRes.ok.inj h with ⟨-, rfl⟩
            exact (decodeString_consumed _).1 s n0 heq
          · exact nomatch h
        · split at h
          · split at h
            · next z n0 heq =>
              rcases DRes.ok.inj h with ⟨-, rfl⟩
              exact (decodeInteger_consumed _).1 z n0 heq
            · exact nomatch h
          · split at h
            · split at h
              · exact nomatch h
              · have hb := ihi _ _ _ _ _ h
                simp only [List.length_drop] at hb
                have hlen : (b :: bs).length = bs.length + 1 := by simp
                omega
            · split at h
              · split at h
                · exact nomatch h
                · have hb := ihp _ _ _ _ _ h
                  simp only [List.length_drop] at hb
                  have hlen : (b :: bs).length = bs.length + 1 := by simp
                  omega
              · exact nomatch h
    · intro data e n h
      simp only [run] at h
      split at h
      · exact (DRes.err.inj h).2.symm
      · split at h
        · split at h
          · exact nomatch h
          · next e0 n0 heq =>
            rcases DRes.err.inj h with ⟨-, rfl⟩
            exact (decodeString_consumed _).2 e0 n0 heq
        · split at h
          · split at h
            · exact nomatch h
            · next e0 n0 heq =>
              rcases DRes.err.inj h with ⟨-, rfl⟩
              exact (decodeInteger_consumed _).2 e0 n0 heq
          · split at h
            · split at h
              · exact (DRes.err.inj h).2.symm
              · exact ihie _ _ _ _ _ h
            · split at h
              · split at h
                · exact (DRes.err.inj h).2.symm
                · exact ihpe _ _ _ _ _ h
              · exact (DRes.err.inj h).2.symm
    · intro rest c acc v n h
      simp only [run] at h
      split at h
      · exact nomatch h
      · next b bs =>
        split at h
        · rcases DRes.ok.inj h with ⟨-, rfl⟩
          simp only [List.length_cons]
          omega
        · split at h
          · exact nomatch h
          · next item n0 heq =>
            have h1 := iht _ _ _ heq
            have h2 := ihi _ _ _ _ _ h
            simp only [List.length_drop] at h2
            omega
    · intro rest c acc e n h
      simp only [run] at h
      split at h
      · exact (DRes.err.inj h).2.symm
      · split at h
        · exact nomatch h
        · split at h
          · exact (DRes.err.inj h).2.symm
          · exact ihie _ _ _ _ _ h
    · intro rest c acc v n h
      simp only [run] at h
      split at h
      · exact nomatch h
      · next b bs =>
        split at h
        · rcases DRes.ok.inj h with ⟨-, rfl⟩
          simp only [List.length_cons]
          omega
        · split at h
          · exact nomatch h
          · next key n0 heq1 =>
            split at h
            · exact nomatch h
            · next val m heq2 =>
              have h1 := iht _ _ _ heq1
              have h2 := iht _ _ _ heq2
              have h3 := ihp _ _ _ _ _ h
              simp only [List.length_drop] at h2 h3
              omega
          · exact nomatch h
    · intro rest c acc e n h
      simp only [run] at h
      split at h
      · exact (DRes.err.inj h).2.symm
      · split at h
        · exact nomatch h
        · split at h
          · exact (DRes.err.inj h).2.symm
          · split at h
            · exact (DRes.err.inj h).2.symm
            · exact ihpe _ _ _ _ _ h
          · exact (DRes.err.inj h).2.symm

/-! ## Torrent metadata model (`torrent/torrent.go`) -/

/-- `FileInfo`: one entry of a multi-file torrent. -/
structure FileInfo where
  Length : Int
  Path : List (List Nat)
  deriving DecidableEq

/-- `TorrentInfo`: the typed projection of the `info` dictionary. -/
structure TorrentInfo where
  PieceLength : Int
  Pieces : List Nat
  Name : List Nat
  Length : Int
  Files : List FileInfo
  Private : Int
  deriving DecidableEq

/-- `TorrentFile` (the fields the verified operations read). -/
structure TorrentFile where
  Announce : List Nat
  Info : TorrentInfo
  deriving DecidableEq

/-- "piece length" -/
def keyPieceLength : List Nat := [112, 105, 101, 99, 101, 32, 108, 101, 110, 103, 116, 104]
/-- "pieces" -/
def keyPieces : List Nat := [112, 105, 101, 99, 101, 115]
/-- "name" -/
def keyName : List Nat := [110, 97, 109, 101]
/-- "length" -/
def keyLength : List Nat := [108, 101, 110, 103, 116, 104]
/-- "files" -/
def keyFiles : List Nat := [102, 105, 108, 101, 115]
/-- "private" -/
def keyPrivate : List Nat := [112, 114, 105, 118, 97, 116, 101]
/-- "path" -/
def keyPath : List Nat := [112, 97, 116, 104]

/-- The per-file dictionary `{"length": ..., "path": ...}` built inside
`InfoHash` (the path is a Go `[]string`). -/
def fileDictPairs (file : FileInfo) : List (List Nat × GoVal) :=
  [(keyLength, .int file.Length), (keyPath, .strList file.Path)]

/-- The dictionary `InfoHash` rebuilds from the typed fields before encoding
(`torrent.go`, `TorrentFile.InfoHash`): base keys `piece length`, `pieces`,
`name`; then `length` when `t.Info.Length > 0`, else `files`; then `private`
when non-zero.  The Go map is unordered; the association list records the
source's insertion order, and `EncodeDict` sorts by key anyway. -/
def TorrentFile.infoDict (t : TorrentFile) : List (List Nat × GoVal) :=
  [(keyPieceLength, .int t.Info.PieceLength),
   (keyPieces, .str t.Info.Pieces),
   (keyName, .str t.Info.Name)]
  ++ (if t.Info.Length > 0 then [(keyLength, .int t.Info.Length)]
      else [(keyFiles, .list (t.Info.Files.map (fun f => .dict (fileDictPairs f))))])
  ++ (if t.Info.Private ≠ 0 then [(keyPrivate, .int t.Info.Private)] else [])

/-- The bytes `InfoHash` feeds to SHA-1 (the hash itself is outside the
model: which dictionary is encoded is what C4 is about). -/
def TorrentFile.InfoHashInput (t : TorrentFile) : List Nat :=
  EncodeDict t.infoDict

/-- `NumPieces` from `torrent.go`: `len(pieces) / 20` (Go integer division). -/
def TorrentFile.NumPieces (t : TorrentFile) : Int :=
  (t.Info.Pieces.length : Int) / 20

/-- `TotalLength` from `torrent.go`: the single-file length when positive,
else the sum of the file lengths. -/
def TorrentFile.TotalLength (t : TorrentFile) : Int :=
  if t.Info.Length > 0 then t.Info.Length
  else (t.Info.Files.map FileInfo.Length).sum

/-- `PieceLength` from `torrent.go`.  Go's `%` truncates toward zero, which is
`Int.tmod`. -/
def TorrentFile.PieceLength (t : TorrentFile) (index : Int) : Int :=
  if index < 0 ∨ index ≥ t.NumPieces then 0
  else if index = t.NumPieces - 1 then
    (if Int.tmod t.TotalLength t.Info.PieceLength = 0 then t.Info.PieceLength
     else Int.tmod t.TotalLength t.Info.PieceLength)
  else t.Info.PieceLength

/-- The two error cases of `PieceHash`. -/
inductive PieceErr where
  /-- "pieces length is not a multiple of 20" -/
  | corruptPieceList
  /-- "piece index out of range: %d (total: %d)" -/
  | indexOutOfRange
  deriving DecidableEq

/-- `PieceHash` from `torrent.go`: the multiple-of-20 check comes first, then
the index range check, then the 20-byte slice at offset `index*20`. -/
def TorrentFile.PieceHash (t : TorrentFile) (index : Int) :
    Except PieceErr (List Nat) :=
  if t.Info.Pieces.length % 20 ≠ 0 then .error .corruptPieceList
  else if index < 0 ∨ index ≥ (t.Info.Pieces.length : Int) / 20 then
    .error .indexOutOfRange
  else .ok ((t.Info.Pieces.drop (index.toNat * 20)).take 20)

/-! ## Peer wire protocol (`peer/handshake.go`) -/

/-- "BitTorrent protocol" -/
def ProtocolIdentifier : List Nat :=
  [66, 105, 116, 84, 111, 114, 114, 101, 110, 116, 32, 112, 114, 111, 116, 111, 99, 111, 108]

/-- `HandshakeLength = 68`, the size of the buffer `Serialize` allocates. -/
def HandshakeLength : Nat := 68

/-- `Handshake`: protocol string, 8 reserved bytes, 20-byte info hash and
20-byte peer id (the fixed array sizes become length hypotheses). -/
structure Handshake where
  Pstr : List Nat
  Reserved : List Nat
  InfoHash : List Nat
  PeerID : List Nat
  deriving DecidableEq

/-- Go `copy(buf[off:], src)`: overwrite at `off`, truncating at the end of
`buf`; the buffer's length never changes. -/
def copyInto (buf : List Nat) (off : Nat) (src : List Nat) : List Nat :=
  buf.take off ++ src.take (buf.length - off)
    ++ buf.drop (off + min (buf.length - off) src.length)

/-- `Handshake.Serialize`: a fixed 68-byte buffer; byte 0 is
`byte(len(Pstr))` (mod 256), then four `copy` calls at offsets computed from
`len(Pstr)`.  `none` models the Go slice-bounds panic, which happens exactly
when `len(Pstr) + 29 > 68` (the slice `buf[1+len+28:]` is the first to go out
of range). -/
def Handshake.Serialize (h : Handshake) : Option (List Nat) :=
  if h.Pstr.length + 29 ≤ HandshakeLength then
    some (copyInto (copyInto (copyInto (copyInto (copyInto
      (List.replicate HandshakeLength 0) 0 [h.Pstr.length % 256])
      1 h.Pstr) (1 + h.Pstr.length) h.Reserved)
      (1 + h.Pstr.length + 8) h.InfoHash) (1 + h.Pstr.length + 28) h.PeerID)
  else none

/-- `NewHandshake`: protocol identifier, zeroed reserved bytes. -/
def NewHandshake (infoHash peerID : List Nat) : Handshake :=
  ⟨ProtocolIdentifier, List.replicate 8 0, infoHash, peerID⟩

/-- `ExtensionDHT`: bit 0 of reserved byte 7. -/
def ExtensionDHT : Nat := 0
/-- `ExtensionExtensions`: bit 5 of reserved byte 5. -/
def ExtensionExtensions : Nat := 5
/-- `ExtensionFast`: bit 7 of reserved byte 7. -/
def ExtensionFast : Nat := 7

/-- `Handshake.SetExtension`: OR the fixed mask into the fixed reserved byte;
unrecognized identifiers are a no-op. -/
def Handshake.SetExtension (h : Handshake) (bit : Nat) : Handshake :=
  if bit = ExtensionDHT then
    { h with Reserved := h.Reserved.set 7 (h.Reserved.getD 7 0 ||| 1) }
  else if bit = ExtensionExtensions then
    { h with Reserved := h.Reserved.set 5 (h.Reserved.getD 5 0 ||| 32) }
  else if bit = ExtensionFast then
    { h with Reserved := h.Reserved.set 7 (h.Reserved.getD 7 0 ||| 128) }
  else h

/-- `Handshake.HasExtension`: AND the fixed mask against the fixed reserved
byte; unrecognized identifiers report `false`. -/
def Handshake.HasExtension (h : Handshake) (bit : Nat) : Bool :=
  if bit = ExtensionDHT then (h.Reserved.getD 7 0 &&& 1) ≠ 0
  else if bit = ExtensionExtensions then (h.Reserved.getD 5 0 &&& 32) ≠ 0
  else if bit = ExtensionFast then (h.Reserved.getD 7 0 &&& 128) ≠ 0
  else false

/-! ## Tracker compact peer list (`tracker/tracker.go`, `parsePeers`) -/

/-- A tracker-announced peer: 4 IPv4 bytes and a 16-bit port. -/
structure Peer where
  IP : List Nat
  Port : Nat
  deriving DecidableEq

/-- The 6-bytes-per-peer loop of `parsePeers`: 4 address bytes, then a
big-endian 16-bit port. -/
def parsePeersLoop : List Nat → List Peer
  | b0 :: b1 :: b2 :: b3 :: b4 :: b5 :: rest =>
    ⟨[b0, b1, b2, b3], b4 * 256 + b5⟩ :: parsePeersLoop rest
  | _ => []

/-- The tracker error relevant here. -/
inductive TrackerErr where
  /-- "invalid peer list length: %d" -/
  | invalidPeerListLength
  deriving DecidableEq

/-- `parsePeers` from `tracker/tracker.go`: the length must be a multiple of
6, then each 6-byte group becomes one peer, in input order. -/
def parsePeers (peerData : List Nat) : Except TrackerErr (List Peer) :=
  if peerData.length % 6 ≠ 0 then .error .invalidPeerListLength
  else .ok (parsePeersLoop peerData)

/-! ## Remaining helper lemmas for the claims -/

/-- A success of the list loop is always a `.list`, of the dictionary loop
always a `.dict`. -/
theorem run_ok_shape (f : Nat) :
    (∀ rest c acc v n, run f (.items rest c acc) = .ok v n → ∃ l, v = .list l)
    ∧ (∀ rest c acc v n, run f (.pairs rest c acc) = .ok v n → ∃ p, v = .dict p) := by
  induction f with
  | zero =>
    exact ⟨fun _ _ _ _ _ h => (nomatch h), fun _ _ _ _ _ h => (nomatch h)⟩
  | succ f ih =>
    constructor
    · intro rest c acc v n h
      simp only [run] at h
      split at h
      · exact nomatch h
      · split at h
        · exact ⟨acc, (DRes.ok.inj h).1.symm⟩
        · split at h
          · exact nomatch h
          · exact ih.1 _ _ _ _ _ h
    · intro rest c acc v n h
      simp only [run] at h
      split at h
      · exact nomatch h
      · split at h
        · exact ⟨acc, (DRes.ok.inj h).1.symm⟩
        · split at h
          · exact nomatch h
          · split at h
            · exact nomatch h
            · exact ih.2 _ _ _ _ _ h
          · exact nomatch h

theorem drop_replicate (a : Nat) :
    ∀ k n, (List.replicate n a).drop k = List.replicate (n - k) a
  | 0, n => by simp
  | k + 1, 0 => by simp
  | k + 1, n + 1 => by
    rw [List.replicate_succ, List.drop_succ_cons, drop_replicate a k n]
    congr 1
    omega

/-- Writing `src` at the seam of `pre ++ rest` when it fits. -/
theorem copyInto_append (pre rest src : List Nat) (h : src.length ≤ rest.length) :
    copyInto (pre ++ rest) pre.length src = pre ++ (src ++ rest.drop src.length) := by
  rw [copyInto]
  have h1 : (pre ++ rest).take pre.length = pre := List.take_left pre rest
  have h2 : (pre ++ rest).length - pre.length = rest.length := by simp
  have h3 : min rest.length src.length = src.length := by omega
  have h4 : src.take rest.length = src := List.take_of_length_le h
  have h5 : (pre ++ rest).drop (pre.length + src.length) = rest.drop src.length := by
    rw [← List.drop_drop, List.drop_left]
  rw [h1, h2, h3, h4, h5, List.append_assoc]

/-- The indexed description of the compact peer-list loop. -/
theorem parsePeersLoop_spec :
    ∀ pd : List Nat, pd.length % 6 = 0 →
      (parsePeersLoop pd).length = pd.length / 6 ∧
      ∀ i, i < pd.length / 6 →
        ∃ b0 b1 b2 b3 b4 b5, (pd.drop (6 * i)).take 6 = [b0, b1, b2, b3, b4, b5] ∧
          (parsePeersLoop pd).get? i = some ⟨[b0, b1, b2, b3], b4 * 256 + b5⟩
  | [], _ => by simp [parsePeersLoop]
  | [_], h => by simp at h
  | [_, _], h => by simp at h
  | [_, _, _], h => by simp at h
  | [_, _, _, _], h => by simp at h
  | [_, _, _, _, _], h => by simp at h
  | b0 :: b1 :: b2 :: b3 :: b4 :: b5 :: rest, h => by
    have hrest : rest.length % 6 = 0 := by
      simp only [List.length_cons] at h
      omega
    obtain ⟨ihlen, ihget⟩ := parsePeersLoop_spec rest hrest
    have hlen : (b0 :: b1 :: b2 :: b3 :: b4 :: b5 :: rest).length = rest.length + 6 := by
      simp
    constructor
    · rw [parsePeersLoop, List.length_cons, ihlen, hlen]
      omega
    · intro i hi
      match i with
      | 0 =>
        exact ⟨b0, b1, b2, b3, b4, b5, by simp, by simp [parsePeersLoop]⟩
      | i + 1 =>
        have hi' : i < rest.length / 6 := by
          rw [hlen] at hi
          omega
        obtain ⟨c0, c1, c2, c3, c4, c5, hc, hg⟩ := ihget i hi'
        refine ⟨c0, c1, c2, c3, c4, c5, ?_, ?_⟩
        · have : 6 * (i + 1) = 6 * i + 6 := by ring
          rw [this]
          have hdrop : (b0 :: b1 :: b2 :: b3 :: b4 :: b5 :: rest).drop (6 * i + 6)
              = rest.drop (6 * i) := by
            have : 6 * i + 6 = 6 + 6 * i := by ring
            rw [this, ← List.drop_drop]
            simp
          rw [hdrop]
          exact hc
        · rw [parsePeersLoop, List.get?_cons_succ]
          exact hg

/-! ## The claims -/

/-- One definitional step of the dispatch of `Decode` on a non-empty buffer
(stated at abstract fuel so rewriting cannot over-unfold the recursion). -/
theorem run_top_cons (f : Nat) (b : Nat) (rest : List Nat) :
    run (f + 1) (.top (b :: rest)) =
      (if isDigit b then
        match decodeString (b :: rest) with
        | .ok s n => .ok (.str s) n
        | .err e n => .err e n
      else if b = 105 then
        match decodeInteger (b :: rest) with
        | .ok v n => .ok (.int v) n
        | .err e n => .err e n
      else if b = 108 then
        if (b :: rest).length < 2 then .err .listBadFormat 0
        else run f (.items ((b :: rest).drop 1) 1 [])
      else if b = 100 then
        if (b :: rest).length < 2 then .err .dictBadFormat 0
        else run f (.pairs ((b :: rest).drop 1) 1 [])
      else .err (.unknownType b) 0) := rfl

/-- C1: for every non-empty buffer, `Decode` dispatches on the first byte: an
ASCII digit runs the string decoder, `i` (105) the integer decoder, `l` (108)
yields a list decode (every success is a `.list`), `d` (100) a dictionary
decode (every success is a `.dict`), and any other first byte the
"unkown type" error; in particular `"d3:foo3:bare"` decodes to the dictionary
`{"foo": "bar"}` (consuming all 12 bytes) rather than failing. -/
theorem c1_decode_dispatch :
    (∀ b rest, isDigit b = true →
      Decode (b :: rest) = (match decodeString (b :: rest) with
        | .ok s n => .ok (.str s) n
        | .err e n => .err e n))
    ∧ (∀ rest, Decode (105 :: rest) = (match decodeInteger (105 :: rest) with
        | .ok v n => .ok (.int v) n
        | .err e n => .err e n))
    ∧ (∀ rest v n, Decode (108 :: rest) = .ok v n → ∃ l, v = .list l)
    ∧ (∀ rest v n, Decode (100 :: rest) = .ok v n → ∃ d, v = .dict d)
    ∧ (∀ b rest, isDigit b = false → b ≠ 105 → b ≠ 108 → b ≠ 100 →
        Decode (b :: rest) = .err (.unknownType b) 0)
    ∧ Decode [100, 51, 58, 102, 111, 111, 51, 58, 98, 97, 114, 101]
        = .ok (.dict [([102, 111, 111], .str [98, 97, 114])]) 12 := by
  refine ⟨?_, ?_, ?_, ?_, ?_, rfl⟩
  · intro b rest hdig
    rw [Decode, run_top_cons, if_pos hdig]
  · intro rest
    rw [Decode, run_top_cons, if_neg (by decide : ¬ isDigit 105 = true),
      if_pos rfl]
  · intro rest v n h
    rw [Decode, run_top_cons, if_neg (by decide : ¬ isDigit 108 = true),
      if_neg (by decide : ¬ (108 : Nat) = 105), if_pos rfl] at h
    split at h
    · exact nomatch h
    · exact (run_ok_shape _).1 _ _ _ _ _ h
  · intro rest v n h
    rw [Decode, run_top_cons, if_neg (by decide : ¬ isDigit 100 = true),
      if_neg (by decide : ¬ (100 : Nat) = 105),
      if_neg (by decide : ¬ (100 : Nat) = 108), if_pos rfl] at h
    split at h
    · exact nomatch h
    · exact (run_ok_shape _).2 _ _ _ _ _ h
  · intro b rest hdig h105 h108 h100
    rw [Decode, run_top_cons, if_neg (by simp [hdig]), if_neg h105, if_neg h108,
      if_neg h100]

/-- C1 witness: a byte that is neither a digit nor `i`, `l`, `d` (here `x`,
120) is rejected as an unknown type. -/
theorem c1_decode_dispatch_witness :
    Decode [120] = .err (.unknownType 120) 0 :=
  c1_decode_dispatch.2.2.2.2.1 120 [] (by decide) (by decide) (by decide) (by decide)

/-- C5: the integer edge cases.  `"i0e"` decodes to `0` (consuming 3 bytes);
`"i042e"` fails with the leading-zeros error; `"i-0e"` fails with the
negative-zero error; `"i-5e"` decodes to `-5`; the non-numeric body `"i4a2e"`
fails with the invalid-integer (`ParseInt`) error; the unterminated `"i42"`
fails with the no-end-marker error.  Every failure consumes 0 bytes. -/
theorem c5_integer_edge_cases :
    Decode [105, 48, 101] = .ok (.int 0) 3
    ∧ Decode [105, 48, 52, 50, 101] = .err .intLeadingZero 0
    ∧ Decode [105, 45, 48, 101] = .err .intNegZero 0
    ∧ Decode [105, 45, 53, 101] = .ok (.int (-5)) 4
    ∧ Decode [105, 52, 97, 50, 101] = .err .intInvalid 0
    ∧ Decode [105, 52, 50] = .err .intNoEnd 0 :=
  ⟨rfl, rfl, rfl, rfl, rfl, rfl⟩

/-- C10: `Decode` either succeeds reporting a consumed count `n` with
`0 < n ≤ length of the input`, or fails reporting a consumed count of exactly
`0` (and no value: `DRes.err` carries none, as every Go error return site
returns `nil`). -/
theorem c10_decode_consumption (data : List Nat) :
    (∀ v n, Decode data = .ok v n → 0 < n ∧ n ≤ data.length)
    ∧ (∀ e n, Decode data = .err e n → n = 0) :=
  ⟨fun v n h => (run_consumed _).1 data v n h,
   fun e n h => (run_consumed _).2.1 data e n h⟩

/-- C10 witness: on `"i0e"` the decoder consumes 3 of 3 bytes. -/
theorem c10_decode_consumption_witness : 0 < 3 ∧ 3 ≤ ([105, 48, 101] : List Nat).length :=
  (c10_decode_consumption [105, 48, 101]).1 (.int 0) 3 rfl

/-- C2: decoding the bytes `EncodeDict` produces for any well-formed
dictionary succeeds, consumes the whole encoding, and returns a dictionary
that, looked up as a mapping, agrees with the original dictionary on every
key (key order is canonicalized by the encoder and hence not observable). -/
theorem c2_dict_roundtrip (d : List (List Nat × GoVal)) (hwf : WF (.dict d)) :
    Decode (EncodeDict d) = .ok (.dict (toBPairs (sortPairs d))) (EncodeDict d).length
    ∧ ∀ k, lookupB k (toBPairs (sortPairs d)) = (lookupGo k d).map toB := by
  have henc : encodeValue (.dict d) = EncodeDict d := by
    simp [encodeValue, EncodeDict]
  have hnd : (d.map Prod.fst).Nodup := by cases hwf with | dict a b c => exact a
  constructor
  · have h := run_top_enc (.dict d) hwf ((EncodeDict d).length + 1) []
      (by rw [henc]; omega)
    rw [henc, List.append_nil] at h
    have htoB : toB (.dict d) = .dict (toBPairs (sortPairs d)) := by simp [toB]
    rw [htoB] at h
    rw [Decode]
    exact h
  · intro k
    rw [lookupB_toBPairs]
    have hndS : ((sortPairs d).map Prod.fst).Nodup :=
      (((perm_sortPairs d).map Prod.fst).nodup_iff).mpr hnd
    rw [lookupGo_perm (perm_sortPairs d) hndS k]

/-- C2 witness: the dictionary `{"foo": "bar"}` round-trips: its canonical
encoding is `"d3:foo3:bare"` and decoding it reproduces the mapping. -/
theorem c2_dict_roundtrip_witness :
    Decode (EncodeDict [([102, 111, 111], GoVal.str [98, 97, 114])])
      = .ok (.dict (toBPairs (sortPairs [([102, 111, 111], GoVal.str [98, 97, 114])])))
          (EncodeDict [([102, 111, 111], GoVal.str [98, 97, 114])]).length
    ∧ ∀ k, lookupB k (toBPairs (sortPairs [([102, 111, 111], GoVal.str [98, 97, 114])]))
        = (lookupGo k [([102, 111, 111], GoVal.str [98, 97, 114])]).map toB :=
  c2_dict_roundtrip [([102, 111, 111], GoVal.str [98, 97, 114])]
    (WF.dict (by decide)
      (by
        intro kv hkv
        rw [List.mem_singleton] at hkv
        subst hkv
        decide)
      (by
        intro kv hkv
        rw [List.mem_singleton] at hkv
        subst hkv
        exact WF.str (by decide)))

/-- Flexible-offset version of `copyInto_append`. -/
theorem copyInto_at {buf : List Nat} (pre rest src : List Nat) {off : Nat}
    (hbuf : buf = pre ++ rest) (hoff : off = pre.length)
    (hfit : src.length ≤ rest.length) :
    copyInto buf off src = pre ++ (src ++ rest.drop src.length) := by
  subst hbuf
  subst hoff
  exact copyInto_append pre rest src hfit

/-- The 3-byte-protocol-string handshake refuting C3's length formula. -/
def hsShortPstr : Handshake :=
  ⟨[97, 98, 99], List.replicate 8 0, List.replicate 20 0, List.replicate 20 0⟩

/-- C3 counterexample: with protocol string `"abc"` (pstrlen 3) the claimed
total length `1 + pstrlen + 48 = 52` is false — `Serialize` allocates the
fixed `HandshakeLength = 68` bytes and returns all of them. -/
theorem c3_serialize_counterexample :
    (hsShortPstr.Serialize).map List.length = some 68
    ∧ 1 + hsShortPstr.Pstr.length + 48 = 52
    ∧ (68 : Nat) ≠ 52 :=
  ⟨rfl, rfl, by decide⟩

/-- C3 amended: `Serialize` writes byte 0 = pstrlen, then the protocol string,
8 reserved bytes, the 20-byte info-hash and the 20-byte peer-id, but into the
fixed 68-byte buffer: for pstrlen ≤ 19 the remaining `19 - pstrlen` bytes stay
zero, the total length is always `HandshakeLength = 68`, and 68 equals
`1 + pstrlen + 48` exactly when pstrlen = 19. -/
theorem c3_serialize_layout (h : Handshake) (hp : h.Pstr.length ≤ 19)
    (hr : h.Reserved.length = 8) (hih : h.InfoHash.length = 20)
    (hpid : h.PeerID.length = 20) :
    h.Serialize = some ([h.Pstr.length] ++ (h.Pstr ++ (h.Reserved ++ (h.InfoHash
        ++ (h.PeerID ++ List.replicate (19 - h.Pstr.length) 0)))))
    ∧ ([h.Pstr.length] ++ (h.Pstr ++ (h.Reserved ++ (h.InfoHash
        ++ (h.PeerID ++ List.replicate (19 - h.Pstr.length) 0))))).length
        = HandshakeLength
    ∧ (1 + h.Pstr.length + 48 = HandshakeLength ↔ h.Pstr.length = 19) := by
  have hm : h.Pstr.length % 256 = h.Pstr.length := Nat.mod_eq_of_lt (by omega)
  refine ⟨?_, ?_, ?_⟩
  · rw [Handshake.Serialize, if_pos (by rw [HandshakeLength]; omega)]
    simp only [HandshakeLength]
    have e0 : copyInto (List.replicate 68 0) 0 [h.Pstr.length % 256]
        = [h.Pstr.length] ++ List.replicate 67 0 := by
      rw [copyInto_at [] (List.replicate 68 0) [h.Pstr.length % 256] (by simp) (by simp)
        (by simp)]
      simp [drop_replicate, hm]
    rw [e0]
    have e1 : copyInto ([h.Pstr.length] ++ List.replicate 67 0) 1 h.Pstr
        = ([h.Pstr.length] ++ h.Pstr) ++ List.replicate (67 - h.Pstr.length) 0 := by
      rw [copyInto_at [h.Pstr.length] (List.replicate 67 0) h.Pstr rfl (by simp)
        (by simp; omega)]
      rw [drop_replicate, ← List.append_assoc]
    rw [e1]
    have e2 : copyInto (([h.Pstr.length] ++ h.Pstr)
          ++ List.replicate (67 - h.Pstr.length) 0) (1 + h.Pstr.length) h.Reserved
        = (([h.Pstr.length] ++ h.Pstr) ++ h.Reserved)
          ++ List.replicate (59 - h.Pstr.length) 0 := by
      rw [copyInto_at ([h.Pstr.length] ++ h.Pstr)
        (List.replicate (67 - h.Pstr.length) 0) h.Reserved rfl (by simp; omega)
        (by simp [hr]; omega)]
      rw [drop_replicate, hr]
      have harith : 67 - h.Pstr.length - 8 = 59 - h.Pstr.length := by omega
      rw [harith]
      simp only [List.append_assoc]
    rw [e2]
    have e3 : copyInto ((([h.Pstr.length] ++ h.Pstr) ++ h.Reserved)
          ++ List.replicate (59 - h.Pstr.length) 0) (1 + h.Pstr.length + 8) h.InfoHash
        = ((([h.Pstr.length] ++ h.Pstr) ++ h.Reserved) ++ h.InfoHash)
          ++ List.replicate (39 - h.Pstr.length) 0 := by
      rw [copyInto_at (([h.Pstr.length] ++ h.Pstr) ++ h.Reserved)
        (List.replicate (59 - h.Pstr.length) 0) h.InfoHash rfl (by simp [hr]; omega)
        (by simp [hih]; omega)]
      rw [drop_replicate, hih]
      have harith : 59 - h.Pstr.length - 20 = 39 - h.Pstr.length := by omega
      rw [harith]
      simp only [List.append_assoc]
    rw [e3]
    have e4 : copyInto (((([h.Pstr.length] ++ h.Pstr) ++ h.Reserved) ++ h.InfoHash)
          ++ List.replicate (39 - h.Pstr.length) 0) (1 + h.Pstr.length + 28) h.PeerID
        = (((([h.Pstr.length] ++ h.Pstr) ++ h.Reserved) ++ h.InfoHash) ++ h.PeerID)
          ++ List.replicate (19 - h.Pstr.length) 0 := by
      rw [copyInto_at ((([h.Pstr.length] ++ h.Pstr) ++ h.Reserved) ++ h.InfoHash)
        (List.replicate (39 - h.Pstr.length) 0) h.PeerID rfl
        (by simp [hr, hih]; omega) (by simp [hpid]; omega)]
      rw [drop_replicate, hpid]
      have harith : 39 - h.Pstr.length - 20 = 19 - h.Pstr.length := by omega
      rw [harith]
      simp only [List.append_assoc]
    rw [e4]
    simp [List.append_assoc]
  · simp only [List.length_append, List.length_singleton, List.length_replicate, hr,
      hih, hpid, HandshakeLength]
    omega
  · rw [HandshakeLength]
    omega

/-- C3 witness for the amended claim: the canonical handshake
(`"BitTorrent protocol"`, pstrlen 19). -/
theorem c3_serialize_layout_witness :
    (NewHandshake (List.replicate 20 3) (List.replicate 20 4)).Serialize
      = some ([(NewHandshake (List.replicate 20 3) (List.replicate 20 4)).Pstr.length]
        ++ ((NewHandshake (List.replicate 20 3) (List.replicate 20 4)).Pstr
        ++ ((NewHandshake (List.replicate 20 3) (List.replicate 20 4)).Reserved
        ++ ((NewHandshake (List.replicate 20 3) (List.replicate 20 4)).InfoHash
        ++ ((NewHandshake (List.replicate 20 3) (List.replicate 20 4)).PeerID
        ++ List.replicate
            (19 - (NewHandshake (List.replicate 20 3) (List.replicate 20 4)).Pstr.length)
            0))))) :=
  (c3_serialize_layout (NewHandshake (List.replicate 20 3) (List.replicate 20 4))
    (by decide) (by decide) (by decide) (by decide)).1

/-- C4: the dictionary `InfoHash` encodes (and then hashes) contains exactly
the keys `piece length`, `pieces`, `name`, plus `length` exactly when the
torrent is in single-file mode (the code's criterion: `Info.Length > 0`), or
`files` exactly when it is in multi-file mode, plus `private` exactly when
the private field is non-zero; each `files` entry carries exactly the keys
`length` and `path`. -/
theorem c4_infohash_keys (t : TorrentFile) :
    (∀ k, k ∈ t.infoDict.map Prod.fst ↔
      (k = keyPieceLength ∨ k = keyPieces ∨ k = keyName
        ∨ (k = keyLength ∧ t.Info.Length > 0)
        ∨ (k = keyFiles ∧ ¬ t.Info.Length > 0)
        ∨ (k = keyPrivate ∧ t.Info.Private ≠ 0)))
    ∧ (∀ file ∈ t.Info.Files, (fileDictPairs file).map Prod.fst = [keyLength, keyPath])
    ∧ t.InfoHashInput = EncodeDict t.infoDict := by
  refine ⟨?_, fun file _ => rfl, rfl⟩
  intro k
  by_cases hL : t.Info.Length > 0 <;> by_cases hP : t.Info.Private ≠ 0 <;>
    simp [TorrentFile.infoDict, hL, hP] <;> tauto

/-- C4 witness: a multi-file torrent with a non-zero `private` flag. -/
def tMulti : TorrentFile :=
  ⟨[], ⟨16, List.replicate 40 0, [110], 0, [⟨7, [[97]]⟩], 1⟩⟩

theorem c4_infohash_keys_witness :
    (keyFiles ∈ tMulti.infoDict.map Prod.fst
      ↔ (keyFiles = keyPieceLength ∨ keyFiles = keyPieces ∨ keyFiles = keyName
          ∨ (keyFiles = keyLength ∧ tMulti.Info.Length > 0)
          ∨ (keyFiles = keyFiles ∧ ¬ tMulti.Info.Length > 0)
          ∨ (keyFiles = keyPrivate ∧ tMulti.Info.Private ≠ 0)))
    ∧ (fileDictPairs ⟨7, [[97]]⟩).map Prod.fst = [keyLength, keyPath] :=
  ⟨(c4_infohash_keys tMulti).1 keyFiles,
   (c4_infohash_keys tMulti).2.1 ⟨7, [[97]]⟩ (by simp [tMulti])⟩

/-- C6: with a positive configured piece length, `PieceLength` returns the
configured length on every valid non-last index; on the last index it returns
`TotalLength mod pieceLength` (Go `%`, i.e. `Int.tmod`) unless that remainder
is zero, in which case the full piece length; any out-of-range index
(negative or `≥ NumPieces`) yields 0. -/
theorem c6_piece_length (t : TorrentFile) (hpl : 0 < t.Info.PieceLength) :
    (∀ i : Int, 0 ≤ i → i < t.NumPieces - 1 → t.PieceLength i = t.Info.PieceLength)
    ∧ (0 < t.NumPieces →
        t.PieceLength (t.NumPieces - 1)
          = (if Int.tmod t.TotalLength t.Info.PieceLength = 0 then t.Info.PieceLength
             else Int.tmod t.TotalLength t.Info.PieceLength))
    ∧ (∀ i : Int, (i < 0 ∨ i ≥ t.NumPieces) → t.PieceLength i = 0) := by
  refine ⟨?_, ?_, ?_⟩
  · intro i h0 hlt
    rw [TorrentFile.PieceLength, if_neg (by omega), if_neg (by omega)]
  · intro hN
    rw [TorrentFile.PieceLength, if_neg (by omega), if_pos rfl]
  · intro i hi
    rw [TorrentFile.PieceLength, if_pos hi]

/-- C6/C7 witness torrent: piece length 16, two pieces (40 hash bytes),
single-file length 30. -/
def tTwoPieces : TorrentFile :=
  ⟨[], ⟨16, List.replicate 40 0, [110], 30, [], 0⟩⟩

theorem c6_piece_length_witness :
    tTwoPieces.PieceLength 0 = tTwoPieces.Info.PieceLength
    ∧ tTwoPieces.PieceLength (tTwoPieces.NumPieces - 1)
        = (if Int.tmod tTwoPieces.TotalLength tTwoPieces.Info.PieceLength = 0
           then tTwoPieces.Info.PieceLength
           else Int.tmod tTwoPieces.TotalLength tTwoPieces.Info.PieceLength)
    ∧ tTwoPieces.PieceLength 5 = 0 :=
  ⟨(c6_piece_length tTwoPieces (by decide)).1 0 (by decide) (by decide),
   (c6_piece_length tTwoPieces (by decide)).2.1 (by decide),
   (c6_piece_length tTwoPieces (by decide)).2.2 5 (by decide)⟩

/-- C7: when the pieces string's length is not a multiple of 20 every
`PieceHash` call fails with the corrupt-piece-list error, whatever the index
(the multiple-of-20 check precedes the range check); when it is a multiple of
20, a negative or too-large index fails with the index-out-of-range error and
a valid index returns the 20-byte slice at offset `index*20`. -/
theorem c7_piece_hash (t : TorrentFile) :
    (t.Info.Pieces.length % 20 ≠ 0 →
      ∀ i : Int, t.PieceHash i = .error .corruptPieceList)
    ∧ (t.Info.Pieces.length % 20 = 0 →
        (∀ i : Int, (i < 0 ∨ i ≥ t.NumPieces) → t.PieceHash i = .error .indexOutOfRange)
        ∧ (∀ i : Int, 0 ≤ i → i < t.NumPieces →
            t.PieceHash i = .ok ((t.Info.Pieces.drop (i.toNat * 20)).take 20)
            ∧ ((t.Info.Pieces.drop (i.toNat * 20)).take 20).length = 20)) := by
  constructor
  · intro hmod i
    rw [TorrentFile.PieceHash, if_pos hmod]
  · intro hmod
    have hdiv : ((t.Info.Pieces.length / 20 : Nat) : Int)
        = (t.Info.Pieces.length : Int) / 20 := by
      exact_mod_cast rfl
    constructor
    · intro i hi
      rw [TorrentFile.NumPieces] at hi
      rw [TorrentFile.PieceHash, if_neg (by simp [hmod]), if_pos hi]
    · intro i h0 hN
      rw [TorrentFile.NumPieces] at hN
      rw [TorrentFile.PieceHash, if_neg (by simp [hmod]), if_neg (by omega)]
      refine ⟨rfl, ?_⟩
      have hi' : i.toNat < t.Info.Pieces.length / 20 := by omega
      simp only [List.length_take, List.length_drop]
      omega

theorem c7_piece_hash_witness :
    tTwoPieces.PieceHash 1
      = .ok ((tTwoPieces.Info.Pieces.drop ((1 : Int).toNat * 20)).take 20)
    ∧ ((tTwoPieces.Info.Pieces.drop ((1 : Int).toNat * 20)).take 20).length = 20 :=
  (c7_piece_hash tTwoPieces).2 (by decide) |>.2 1 (by decide) (by decide)

/-- C8: a compact peer list whose length is a multiple of 6 decodes into one
peer per 6-byte group — 4 IPv4 address bytes then a big-endian 16-bit port —
in input order; the 12-byte example decodes to exactly 127.0.0.1:6881 then
192.168.0.1:6881; any other length fails with the invalid-peer-list-length
error. -/
theorem c8_parse_peers :
    (∀ peerData : List Nat, peerData.length % 6 ≠ 0 →
      parsePeers peerData = .error .invalidPeerListLength)
    ∧ (∀ peerData : List Nat, peerData.length % 6 = 0 →
        ∃ peers, parsePeers peerData = .ok peers
          ∧ peers.length = peerData.length / 6
          ∧ ∀ i, i < peerData.length / 6 →
              ∃ b0 b1 b2 b3 b4 b5,
                (peerData.drop (6 * i)).take 6 = [b0, b1, b2, b3, b4, b5]
                ∧ peers.get? i = some ⟨[b0, b1, b2, b3], b4 * 256 + b5⟩)
    ∧ parsePeers [127, 0, 0, 1, 26, 225, 192, 168, 0, 1, 26, 225]
        = .ok [⟨[127, 0, 0, 1], 6881⟩, ⟨[192, 168, 0, 1], 6881⟩] := by
  refine ⟨?_, ?_, rfl⟩
  · intro pd hmod
    rw [parsePeers, if_pos hmod]
  · intro pd hmod
    exact ⟨parsePeersLoop pd, by rw [parsePeers, if_neg (by simp [hmod])],
      (parsePeersLoop_spec pd hmod).1, (parsePeersLoop_spec pd hmod).2⟩

theorem c8_parse_peers_witness :
    parsePeers [1] = .error .invalidPeerListLength :=
  c8_parse_peers.1 [1] (by decide)

/-- C9: on a handshake with zeroed reserved bytes, setting `ExtensionDHT` sets
reserved byte 7 to exactly 1 (all the others stay 0); additionally setting
`ExtensionExtensions` sets byte 5 to exactly 32 leaving byte 7 (and every
other byte) unchanged; `SetExtension` with any unrecognized identifier leaves
the handshake — hence every reserved byte — unchanged. -/
theorem c9_set_extension :
    (∀ h : Handshake, h.Reserved = List.replicate 8 0 →
      (h.SetExtension ExtensionDHT).Reserved = [0, 0, 0, 0, 0, 0, 0, 1]
      ∧ ((h.SetExtension ExtensionDHT).SetExtension ExtensionExtensions).Reserved
          = [0, 0, 0, 0, 0, 32, 0, 1])
    ∧ (∀ (h : Handshake) (bit : Nat), bit ≠ ExtensionDHT →
        bit ≠ ExtensionExtensions → bit ≠ ExtensionFast →
        h.SetExtension bit = h) := by
  constructor
  · intro h hres
    rcases h with ⟨p, r, ihsh, pid⟩
    have hr : r = List.replicate 8 0 := hres
    subst hr
    constructor
    · simp [Handshake.SetExtension, ExtensionDHT, ExtensionExtensions, ExtensionFast,
        List.replicate]
    · simp [Handshake.SetExtension, ExtensionDHT, ExtensionExtensions, ExtensionFast,
        List.replicate]
  · intro h bit h0 h5 h7
    rw [Handshake.SetExtension, if_neg h0, if_neg h5, if_neg h7]

theorem c9_set_extension_witness :
    ((NewHandshake [] []).SetExtension ExtensionDHT).Reserved = [0, 0, 0, 0, 0, 0, 0, 1]
    ∧ (((NewHandshake [] []).SetExtension ExtensionDHT).SetExtension
        ExtensionExtensions).Reserved = [0, 0, 0, 0, 0, 32, 0, 1]
    ∧ (NewHandshake [] []).SetExtension 3 = NewHandshake [] [] :=
  ⟨(c9_set_extension.1 (NewHandshake [] []) rfl).1,
   (c9_set_extension.1 (NewHandshake [] []) rfl).2,
   c9_set_extension.2 (NewHandshake [] []) 3 (by decide) (by decide) (by decide)⟩

end BT
